import Mathlib

/-!
# qArchiver: the `ArchiveTool` window of `src/main.cpp`

A shallow embedding of the session logic of `ArchiveTool`: the four session
fields (`archivePath`, `archiveContents`, `newArchiveFiles`, `createMode`),
the widgets whose content the slots change, and the slots themselves
(`dropEvent`, `listArchiveContents`, `extractSelectedFiles`, `extractAllFiles`,
`extractSingleFile`, `newArchive`, `saveArchive`).

Everything outside the program is an explicit input of the slot that uses it:
the result of a file dialog, whether a file exists, and what each external
process did (`ProcOutcome`).  Everything a slot does to the outside is recorded
as a list of `Event`s in program order: the processes it starts, the values it
gives the progress bar, the message boxes it shows.

The Qt library functions the slots call (`QString::split`, `section`,
`trimmed`, `contains`, `startsWith`, `endsWith`, `toLower`,
`QFileInfo::suffix`, `QFileInfo::fileName`, `QProcess::waitForFinished`) are
modelled after their documented behaviour on Unix.
-/

namespace QArchiver

/-! ## Qt strings -/

/-- A `QString`, as its sequence of characters. -/
abbrev QString := List Char

/-- `QChar::isSpace`: U+0020, U+0009..U+000D, U+0085, U+00A0 and the Unicode
separator categories Zs, Zl and Zp. -/
def QChar_isSpace (c : Char) : Bool :=
  let u := c.toNat
  u == 0x20 || (0x09 ≤ u && u ≤ 0x0d) ||
    (u > 127 && (u == 0x85 || u == 0xa0 || u == 0x1680 || (0x2000 ≤ u && u ≤ 0x200a)
      || u == 0x2028 || u == 0x2029 || u == 0x202f || u == 0x205f || u == 0x3000))

/-- `QString::toLower`.  Only the letters `A`..`Z` are mapped; this agrees with
Qt on every string whose lower-case form is one of the ASCII literals the
program compares it with. -/
def QString_toLower (s : QString) : QString := s.map Char.toLower

/-- `QString::trimmed`: white space removed from both ends. -/
def QString_trimmed (s : QString) : QString :=
  (s.dropWhile QChar_isSpace).rdropWhile QChar_isSpace

/-- `QString::startsWith` (case sensitive). -/
def QString_startsWith (s pre : QString) : Bool := pre.isPrefixOf s

/-- `QString::endsWith` (case sensitive). -/
def QString_endsWith (s suf : QString) : Bool := suf.isSuffixOf s

/-- `QString::contains` (case sensitive): `sub` occurs in `s` as a contiguous
run of characters. -/
def QString_contains : QString → QString → Bool
  | [], sub => sub.isPrefixOf []
  | c :: cs, sub => sub.isPrefixOf (c :: cs) || QString_contains cs sub

/-- The fields of `s` between occurrences of `sep`, as the first field and the
list of the following ones, so that the result is never without a field. -/
def splitFields (sep : Char) : QString → QString × List QString
  | [] => ([], [])
  | c :: cs =>
    let r := splitFields sep cs
    if c = sep then ([], r.1 :: r.2) else (c :: r.1, r.2)

/-- `QString::split(sep, QString::KeepEmptyParts)`. -/
def QString_split (sep : Char) (s : QString) : List QString :=
  (splitFields sep s).1 :: (splitFields sep s).2

/-- `QString::split(sep, QString::SkipEmptyParts)`. -/
def QString_splitSkipEmptyParts (sep : Char) (s : QString) : List QString :=
  (QString_split sep s).filter (fun f => !f.isEmpty)

/-- The separator `sep` put between the given fields. -/
def joinFields (sep : Char) : List QString → QString
  | [] => []
  | [f] => f
  | f :: g :: fs => f ++ sep :: joinFields sep (g :: fs)

/-- `QString::section(sep, start, end)` with the default flags: the fields
`start`..`end` of `s` (negative positions count from the right), joined by
`sep`. -/
def QString_section (s : QString) (sep : Char) (start stop : Int) : QString :=
  let sections := QString_split sep s
  let n : Int := sections.length
  let start := if start < 0 then start + n else start
  let stop := if stop < 0 then stop + n else stop
  if start ≥ n ∨ stop < 0 ∨ start > stop then []
  else
    let first := start.toNat
    joinFields sep ((sections.drop first).take (stop.toNat + 1 - first))

/-! ## `QFileInfo` -/

/-- `QFileInfo::fileName`: what follows the last `/` of the path. -/
def QFileInfo_fileName (path : QString) : QString :=
  (QString_split '/' path).getLastD []

/-- `QFileInfo::suffix`: what follows the last `.` of the file name, and the
empty string when the file name has no `.`. -/
def QFileInfo_suffix (path : QString) : QString :=
  let parts := QString_split '.' (QFileInfo_fileName path)
  if parts.length ≤ 1 then [] else parts.getLastD []

/-! ## External processes -/

/-- What an external process did within the time the program waits for it. -/
inductive ProcOutcome
  | finished (exitCode : Int) (standardOutput : QString)
  | failedToStart
  | timedOut
  deriving DecidableEq, Repr

/-- `QProcess::waitForFinished` on a started process: `true` when the process
finished in time, whatever its exit code. -/
def waitForFinished : ProcOutcome → Bool
  | .finished _ _ => true
  | .failedToStart => false
  | .timedOut => false

/-- `QProcess::readAllStandardOutput`. -/
def readAllStandardOutput : ProcOutcome → QString
  | .finished _ out => out
  | .failedToStart => []
  | .timedOut => []

/-- What a slot does to the outside, in program order. -/
inductive Event
  | procStart (program : QString) (arguments : List QString) (workingDirectory : Option QString)
  | setValue (value : Int)
  | warning (title text : QString)
  | information (title text : QString)
  deriving DecidableEq, Repr

/-- The arithmetic of a 32-bit `int`: the value wrapped into `-2^31 .. 2^31-1`. -/
def int32 (x : Int) : Int := (x + 2147483648) % 4294967296 - 2147483648

/-! ## The session -/

/-- The members of `ArchiveTool` the slots read or write.  A button is
represented by whether it is enabled, the list widget by the texts of its
items, the label by its text. -/
structure ArchiveTool where
  fileList : List QString
  extractButton : Bool
  extractAllButton : Bool
  saveArchiveButton : Bool
  infoLabel : QString
  archivePath : QString
  archiveContents : List QString
  newArchiveFiles : List QString
  createMode : Bool
  deriving DecidableEq, Repr

/-- The window as the constructor leaves it. -/
def ArchiveTool.init : ArchiveTool where
  fileList := []
  extractButton := false
  extractAllButton := false
  saveArchiveButton := false
  infoLabel := "Drag an archive to extract or create a new archive.".toList
  archivePath := []
  archiveContents := []
  newArchiveFiles := []
  createMode := false

/-- The body of the `for` loop of `listArchiveContents`, for one line of the
output. -/
def listLine (suffix : QString) (st : ArchiveTool) (line : QString) : ArchiveTool :=
  if suffix = "zip".toList ∧
      (QString_contains line "----------".toList ∨ QString_startsWith line " Length".toList ∨
        QString_startsWith line " Archive:".toList ∨ QString_startsWith line "   Date".toList) then
    st
  else
    let name := QString_trimmed line
    let name := if suffix = "7z".toList ∨ suffix = "rar".toList then QString_section line ' ' (-1) (-1)
      else name
    { st with fileList := st.fileList ++ [name], archiveContents := st.archiveContents ++ [name] }

/-- `ArchiveTool::listArchiveContents`; `outcome` is what the list command did
within the 8 seconds the slot waits. -/
def listArchiveContents (st : ArchiveTool) (outcome : ProcOutcome) : ArchiveTool × List Event :=
  let st := { st with fileList := [], archiveContents := [], extractButton := false,
                      extractAllButton := false, saveArchiveButton := false, createMode := false }
  let ev := [Event.setValue 0]
  let suffix := QString_toLower (QFileInfo_suffix st.archivePath)
  let started : Option Event :=
    if suffix = "7z".toList then
      some (.procStart "7z".toList ["l".toList, "-ba".toList, st.archivePath] none)
    else if suffix = "rar".toList then
      some (.procStart "unrar".toList ["lb".toList, st.archivePath] none)
    else if suffix = "tar".toList ∨ suffix = "xz".toList then
      some (.procStart "tar".toList ["-tf".toList, st.archivePath] none)
    else if suffix = "zip".toList then
      some (.procStart "unzip".toList ["-l".toList, st.archivePath] none)
    else none
  match started with
  | none => (st, ev ++ [.warning "Unsupported".toList "Unsupported file type.".toList])
  | some start =>
    let ev := ev ++ [start]
    if !waitForFinished outcome then
      (st, ev ++ [.warning "Error".toList "Failed to list archive.".toList])
    else
      let output := readAllStandardOutput outcome
      let lines := QString_splitSkipEmptyParts '\n' output
      let st := lines.foldl (listLine suffix) st
      ({ st with extractButton := true, extractAllButton := true }, ev ++ [.setValue 100])

/-- `ArchiveTool::extractSingleFile`: the value returned and the process
started, if any; `outcome` is what that process did within 15 seconds. -/
def extractSingleFile (st : ArchiveTool) (filename destDir : QString) (outcome : ProcOutcome) :
    Bool × List Event :=
  let suffix := QString_toLower (QFileInfo_suffix st.archivePath)
  if suffix = "7z".toList then
    (waitForFinished outcome,
      [.procStart "7z".toList
        ["e".toList, st.archivePath, filename, "-o".toList ++ destDir, "-y".toList] none])
  else if suffix = "rar".toList then
    (waitForFinished outcome,
      [.procStart "unrar".toList ["e".toList, st.archivePath, filename, destDir] none])
  else if suffix = "zip".toList then
    (waitForFinished outcome,
      [.procStart "unzip".toList [st.archivePath, filename] (some destDir)])
  else if suffix = "tar".toList ∨ suffix = "xz".toList then
    (waitForFinished outcome,
      [.procStart "tar".toList ["-xvf".toList, st.archivePath, filename] (some destDir)])
  else
    (false, [])

/-- The `for` loop of `extractSelectedFiles` from the item at position `i` of
the selection on, `count` being the counter before that item. -/
def extractSelectedLoop (st : ArchiveTool) (destDir : QString) (total : Int)
    (outcomes : Nat → ProcOutcome) : List QString → Nat → Int → List Event
  | [], _, _ => []
  | filename :: rest, i, count =>
    let r := extractSingleFile st filename destDir (outcomes i)
    let count := if r.1 then count + 1 else count
    r.2 ++ [.setValue (Int.tdiv (int32 (count * 100)) total)] ++
      extractSelectedLoop st destDir total outcomes rest (i + 1) count

/-- `ArchiveTool::extractSelectedFiles`: `selectedItems` are the texts of the
selected items, `destDir` is what the directory dialog returned (empty when it
was cancelled), `outcomes i` is what the process of the item at position `i`
did. -/
def extractSelectedFiles (st : ArchiveTool) (selectedItems : List QString) (destDir : QString)
    (outcomes : Nat → ProcOutcome) : List Event :=
  if selectedItems.isEmpty then []
  else if destDir.isEmpty then []
  else
    extractSelectedLoop st destDir selectedItems.length outcomes selectedItems 0 0 ++
      [.information "Done".toList "Selected files extracted.".toList, .setValue 100]

/-- The `for` loop of `extractAllFiles` from the entry at position `i` on,
`count` being the counter before that entry. -/
def extractAllLoop (st : ArchiveTool) (destDir : QString) (total : Int)
    (outcomes : Nat → ProcOutcome) : List QString → Nat → Int → List Event
  | [], _, _ => []
  | filename :: rest, i, count =>
    let r := extractSingleFile st filename destDir (outcomes i)
    let count := count + 1
    r.2 ++ [.setValue (Int.tdiv (int32 (count * 100)) total)] ++
      extractAllLoop st destDir total outcomes rest (i + 1) count

/-- `ArchiveTool::extractAllFiles`, with the inputs of `extractSelectedFiles`. -/
def extractAllFiles (st : ArchiveTool) (destDir : QString) (outcomes : Nat → ProcOutcome) :
    List Event :=
  if destDir.isEmpty then []
  else
    extractAllLoop st destDir st.archiveContents.length outcomes st.archiveContents 0 0 ++
      [.information "Done".toList "All files extracted.".toList, .setValue 100]

/-- `ArchiveTool::newArchive`. -/
def newArchive (st : ArchiveTool) : ArchiveTool × List Event :=
  ({ st with fileList := [], newArchiveFiles := [], archivePath := [], createMode := true,
             extractButton := false, extractAllButton := false, saveArchiveButton := true,
             infoLabel := "Drag files here to add to new archive.".toList },
    [.setValue 0])

/-- `ArchiveTool::saveArchive`: `outPath` is what the save dialog returned
(empty when it was cancelled), `outcome` what the archiver did within 10
seconds. -/
def saveArchive (st : ArchiveTool) (outPath : QString) (outcome : ProcOutcome) :
    ArchiveTool × List Event :=
  if outPath.isEmpty ∨ st.newArchiveFiles.isEmpty then (st, [])
  else
    let suffix := QString_toLower (QFileInfo_suffix outPath)
    let started : Option Event :=
      if suffix = "zip".toList then
        some (.procStart "zip".toList ([outPath] ++ st.newArchiveFiles) none)
      else if suffix = "7z".toList then
        some (.procStart "7z".toList (["a".toList, outPath] ++ st.newArchiveFiles) none)
      else if suffix = "tar".toList then
        some (.procStart "tar".toList (["-cvf".toList, outPath] ++ st.newArchiveFiles) none)
      else if suffix = "xz".toList then
        let tarPath := outPath
        let tarPath := if !QString_endsWith tarPath ".tar.xz".toList then tarPath ++ ".tar.xz".toList
          else tarPath
        some (.procStart "tar".toList (["-cJf".toList, tarPath] ++ st.newArchiveFiles) none)
      else none
    match started with
    | none => (st, [.warning "Unsupported".toList "Unsupported archive format.".toList])
    | some start =>
      if !waitForFinished outcome then
        (st, [start, .setValue 50, .warning "Error".toList "Failed to create archive.".toList])
      else
        ({ st with fileList := [], newArchiveFiles := [], createMode := false },
          [start, .setValue 50,
            .information "Archive Saved".toList "Archive saved successfully.".toList,
            .setValue 100])

/-- The body of the `for` loop of `dropEvent` in create mode, for the local
file `path` of one dropped URL. -/
def dropPath (st : ArchiveTool) (path : QString) : ArchiveTool :=
  if !path.isEmpty ∧ !st.newArchiveFiles.contains path then
    { st with newArchiveFiles := st.newArchiveFiles ++ [path],
              fileList := st.fileList ++ [QFileInfo_fileName path] }
  else st

/-- `ArchiveTool::dropEvent`: `urls` are the dropped URLs, each given by its
`toLocalFile()` (empty for a URL that is not a local file), `fileExists` tells
which paths exist, `outcome` is what the list command did in case the drop
opens an archive. -/
def dropEvent (st : ArchiveTool) (urls : List QString) (fileExists : QString → Bool)
    (outcome : ProcOutcome) : ArchiveTool × List Event :=
  match urls with
  | [] => (st, [])
  | first :: _ =>
    if st.createMode then (urls.foldl dropPath st, [])
    else
      let st := { st with archivePath := first }
      if !fileExists st.archivePath then (st, [])
      else listArchiveContents st outcome

/-- The events of a list that start a process. -/
def startedProcesses (evs : List Event) : List Event :=
  evs.filter (fun e => match e with | .procStart _ _ _ => true | _ => false)

/-- The values given to the progress bar, in order. -/
def progressValues : List Event → List Int
  | [] => []
  | .setValue v :: evs => v :: progressValues evs
  | _ :: evs => progressValues evs

/-! ## The event loop -/

/-- What the user can do to the window. -/
inductive Action
  | dropEvent (urls : List QString) (fileExists : QString → Bool) (outcome : ProcOutcome)
  | extractSelectedFiles (selectedItems : List QString) (destDir : QString)
      (outcomes : Nat → ProcOutcome)
  | extractAllFiles (destDir : QString) (outcomes : Nat → ProcOutcome)
  | newArchive
  | saveArchive (outPath : QString) (outcome : ProcOutcome)

/-- The session after one action; the two extract slots leave it as it is. -/
def step (st : ArchiveTool) : Action → ArchiveTool
  | .dropEvent urls fileExists outcome => (dropEvent st urls fileExists outcome).1
  | .extractSelectedFiles _ _ _ => st
  | .extractAllFiles _ _ => st
  | .newArchive => (newArchive st).1
  | .saveArchive outPath outcome => (saveArchive st outPath outcome).1

/-- The session after a sequence of actions. -/
def run (st : ArchiveTool) (actions : List Action) : ArchiveTool :=
  actions.foldl step st

/-! ## Sample sessions -/

/-- A session with the given archive path, entries and pending files, the
widgets as the constructor leaves them. -/
def sampleSession (archive : String) (entries pending : List String) : ArchiveTool :=
  { ArchiveTool.init with
    archivePath := archive.toList
    archiveContents := entries.map String.toList
    newArchiveFiles := pending.map String.toList }

/-- The outcomes of a batch in which the entry at position 1 (the second one)
times out and every other entry is extracted. -/
def secondTimesOut (i : Nat) : ProcOutcome :=
  if i = 1 then .timedOut else .finished 0 []

/-- The session after "New Archive" and the drop of the file `/home/u/a.txt`. -/
def sampleComposing : ArchiveTool :=
  run ArchiveTool.init
    [.newArchive, .dropEvent ["/home/u/a.txt".toList] (fun _ => true) .timedOut]

/-- The session after the drop of the archive `/home/u/docs.7z`, whose listing
names the one entry `a.txt`. -/
def sampleBrowsing : ArchiveTool :=
  run ArchiveTool.init
    [.dropEvent ["/home/u/docs.7z".toList] (fun _ => true) (.finished 0 "a.txt\n".toList)]

/-- What `unzip -l` prints for an archive `docs.zip` holding the one file
`a.txt` of five bytes. -/
def sampleUnzipListing : QString :=
  ("Archive:  docs.zip\n" ++
   "  Length      Date    Time    Name\n" ++
   "---------  ---------- -----   ----\n" ++
   "        5  2024-01-01 10:00   a.txt\n" ++
   "---------                     -------\n" ++
   "        5                     1 file\n").toList

/-! ## Lists and events -/

/-- A list that is not `[]` answers `false` to `isEmpty`. -/
theorem isEmpty_false_of_ne_nil {α : Type} (l : List α) (h : l ≠ []) : l.isEmpty = false := by
  cases l with
  | nil => exact absurd rfl h
  | cons a as => rfl

/-- The processes started by two runs of events in sequence. -/
theorem startedProcesses_append (a b : List Event) :
    startedProcesses (a ++ b) = startedProcesses a ++ startedProcesses b := by
  simp [startedProcesses]

/-- The progress values of two runs of events in sequence. -/
theorem progressValues_append (a b : List Event) :
    progressValues (a ++ b) = progressValues a ++ progressValues b := by
  induction a with
  | nil => rfl
  | cons e es ih => cases e <;> simp [progressValues, ih]

/-- Counting over `0..m` is counting position `0` and then the shifted positions `0..m-1`. -/
theorem countP_range_succ_shift (p : Nat → Bool) (m : Nat) :
    (List.range (m + 1)).countP p =
      (if p 0 then 1 else 0) + (List.range m).countP (fun j => p (j + 1)) := by
  rw [List.range_succ_eq_map, List.countP_cons, List.countP_map]
  simp only [Function.comp_def, Nat.succ_eq_add_one]
  omega

/-- A member of a list without duplicates occurs in it exactly once. -/
theorem countP_eq_one_of_nodup_mem {α : Type} [DecidableEq α] (l : List α) (a : α)
    (hnd : l.Nodup) (hm : a ∈ l) : l.countP (fun p => decide (p = a)) = 1 := by
  induction l with
  | nil => simp at hm
  | cons b bs ih =>
    rw [List.nodup_cons] at hnd
    rw [List.countP_cons]
    by_cases hb : b = a
    · subst hb
      have h0 : bs.countP (fun p => decide (p = b)) = 0 := by
        rw [List.countP_eq_zero]
        intro x hx
        simp only [decide_eq_true_eq]
        rintro rfl
        exact hnd.1 hx
      simp [h0]
    · have hm2 : a ∈ bs := by
        rcases List.mem_cons.1 hm with h | h
        · exact absurd h.symm hb
        · exact h
      simp [hb, ih hnd.2 hm2]

/-- Dropping all but the last element of a non-empty list leaves its last element. -/
theorem drop_length_getLastD {α : Type} (f : α) (fs : List α) (d : α) :
    (f :: fs).drop fs.length = [(f :: fs).getLastD d] := by
  induction fs generalizing f with
  | nil => rfl
  | cons g gs ih => simpa using ih g

/-- What `rdropWhile` keeps, followed by what it removed, is the list. -/
theorem rdropWhile_append_rtakeWhile {α : Type} (p : α → Bool) (l : List α) :
    l.rdropWhile p ++ l.rtakeWhile p = l := by
  simp only [List.rdropWhile, List.rtakeWhile, ← List.reverse_append,
    List.takeWhile_append_dropWhile, List.reverse_reverse]

/-! ## Qt strings -/

/-- The model of `QString::contains` decides the infix relation of lists. -/
theorem QString_contains_iff (s sub : QString) : QString_contains s sub = true ↔ sub <:+: s := by
  induction s with
  | nil => simp [QString_contains]
  | cons c cs ih =>
    simp only [QString_contains, Bool.or_eq_true, ih, List.isPrefixOf_iff_prefix]
    exact List.infix_cons_iff.symm

/-- The model of `QString::startsWith` decides the prefix relation of lists. -/
theorem QString_startsWith_iff (s pre : QString) : QString_startsWith s pre = true ↔ pre <+: s := by
  simp [QString_startsWith]

/-- A character in front of the first field comes out in front of the joined string. -/
theorem joinFields_cons_head (sep c : Char) (f : QString) (fs : List QString) :
    joinFields sep ((c :: f) :: fs) = c :: joinFields sep (f :: fs) := by
  cases fs <;> simp [joinFields]

/-- Joining the fields of a split with the separator gives the string back. -/
theorem joinFields_split (sep : Char) (s : QString) : joinFields sep (QString_split sep s) = s := by
  induction s with
  | nil => rfl
  | cons c cs ih =>
    unfold QString_split at ih ⊢
    simp only [splitFields]
    by_cases h : c = sep
    · simp only [h, if_true]
      simp only [joinFields, List.nil_append, ih]
    · simp only [h, if_false]
      rw [joinFields_cons_head, ih]

/-- No field of a split contains the separator. -/
theorem split_field_no_sep (sep : Char) (s : QString) :
    ∀ f ∈ QString_split sep s, sep ∉ f := by
  induction s with
  | nil => simp [QString_split, splitFields]
  | cons c cs ih =>
    unfold QString_split at ih ⊢
    simp only [splitFields]
    by_cases h : c = sep
    · simp only [h, if_true]
      intro f hf
      rcases List.mem_cons.1 hf with rfl | hf
      · simp
      · exact ih f hf
    · simp only [h, if_false]
      intro f hf
      rcases List.mem_cons.1 hf with rfl | hf
      · have := ih _ (List.mem_cons_self _ _)
        simp only [List.mem_cons, not_or]
        exact ⟨fun e => h e.symm, this⟩
      · exact ih f (List.mem_cons_of_mem _ hf)

/-- A joined string ends with its last field, and what precedes that field is empty or ends with the
separator. -/
theorem joinFields_last (sep : Char) (f : QString) (fs : List QString) :
    ∃ pre, joinFields sep (f :: fs) = pre ++ (f :: fs).getLastD [] ∧
      (pre = [] ∨ pre.getLast? = some sep) := by
  induction fs generalizing f with
  | nil => exact ⟨[], by simp [joinFields], Or.inl rfl⟩
  | cons g gs ih =>
    obtain ⟨pre, h1, h2⟩ := ih g
    refine ⟨f ++ sep :: pre, ?_, Or.inr ?_⟩
    · simp only [joinFields, h1, List.getLastD_cons, List.append_assoc, List.cons_append]
    · rcases h2 with rfl | h2
      · simp
      · cases pre with
        | nil => simp at h2
        | cons a as =>
          simp [List.getLast?_append, List.getLast?_cons_cons, h2]

/-- The call `section(sep, -1)` returns the last field of the split at `sep`. -/
theorem section_last (line : QString) (sep : Char) :
    QString_section line sep (-1) (-1) = (QString_split sep line).getLastD [] := by
  unfold QString_section
  simp only [QString_split, List.length_cons]
  generalize (splitFields sep line).1 = f
  generalize (splitFields sep line).2 = fs
  have hn : ((-1 : Int) + ((fs.length + 1 : Nat) : Int)) = (fs.length : Int) := by push_cast; ring
  simp only [show ((-1 : Int) < 0) from by decide, if_true, hn]
  rw [if_neg (by push_cast; omega)]
  simp only [Int.toNat_ofNat, Nat.add_sub_cancel_left]
  rw [drop_length_getLastD f fs []]
  simp [joinFields]

/-- The parts of a split that skips empty parts are non-empty and free of the separator. -/
theorem splitSkipEmptyParts_lines (sep : Char) (s : QString) :
    ∀ line ∈ QString_splitSkipEmptyParts sep s, line ≠ [] ∧ sep ∉ line := by
  intro line h
  simp only [QString_splitSkipEmptyParts, List.mem_filter, Bool.not_eq_true',
    List.isEmpty_eq_false] at h
  exact ⟨h.2, split_field_no_sep sep s line h.1⟩

/-- The result of `section(sep, -1)` is the text after the last `sep` of the line: it has no `sep`,
and what precedes it in the line is empty or ends with `sep`. -/
theorem last_field_spec (line : QString) (sep : Char) :
    ∃ pre, line = pre ++ QString_section line sep (-1) (-1) ∧
      sep ∉ QString_section line sep (-1) (-1) ∧ (pre = [] ∨ pre.getLast? = some sep) := by
  rw [section_last]
  obtain ⟨pre, h1, h2⟩ := joinFields_last sep (splitFields sep line).1 (splitFields sep line).2
  have hj := joinFields_split sep line
  unfold QString_split at hj ⊢
  rw [hj] at h1
  refine ⟨pre, h1, ?_, h2⟩
  have hmem : ((splitFields sep line).1 :: (splitFields sep line).2).getLastD [] ∈
      QString_split sep line := by
    unfold QString_split
    rw [List.getLastD_eq_getLast?, List.getLast?_eq_getLast _ (by simp)]
    exact List.getLast_mem _
  exact split_field_no_sep sep line _ hmem

/-- The result of `trimmed` is the line without a leading and a trailing run of white space: what is
cut off is white space only, and the result neither starts nor ends with white space. -/
theorem trimmed_spec (s : QString) :
    ∃ pre post, s = pre ++ QString_trimmed s ++ post ∧
      (∀ c ∈ pre, QChar_isSpace c = true) ∧ (∀ c ∈ post, QChar_isSpace c = true) ∧
      (∀ c, (QString_trimmed s).head? = some c → QChar_isSpace c = false) ∧
      (∀ c, (QString_trimmed s).getLast? = some c → QChar_isSpace c = false) := by
  refine ⟨s.takeWhile QChar_isSpace, (s.dropWhile QChar_isSpace).rtakeWhile QChar_isSpace,
    ?_, ?_, ?_, ?_, ?_⟩
  · unfold QString_trimmed
    rw [List.append_assoc, rdropWhile_append_rtakeWhile, List.takeWhile_append_dropWhile]
  · intro c hc
    exact List.mem_takeWhile_imp hc
  · intro c hc
    exact List.mem_rtakeWhile_imp hc
  · intro c hc
    unfold QString_trimmed at hc
    have hpre : (s.dropWhile QChar_isSpace).rdropWhile QChar_isSpace <+: s.dropWhile QChar_isSpace :=
      List.rdropWhile_prefix _ _
    have hh : (s.dropWhile QChar_isSpace).head? = some c := by
      obtain ⟨t, ht⟩ := hpre
      rw [← ht]
      cases hr : (s.dropWhile QChar_isSpace).rdropWhile QChar_isSpace with
      | nil => rw [hr] at hc; simp at hc
      | cons a as => rw [hr] at hc; simpa using hc
    have := List.head?_dropWhile_not QChar_isSpace s
    rw [hh] at this
    simpa using this
  · intro c hc
    unfold QString_trimmed at hc
    by_cases hne : (s.dropWhile QChar_isSpace).rdropWhile QChar_isSpace = []
    · rw [hne] at hc; simp at hc
    · have := List.rdropWhile_last_not QChar_isSpace (s.dropWhile QChar_isSpace) hne
      rw [List.getLast?_eq_getLast _ hne] at hc
      cases hc
      simpa using this

/-- A path whose lower-cased suffix is a non-empty string is itself non-empty. -/
theorem suffix_ne_nil_path (p ext : QString) (hext : ext ≠ [])
    (h : QString_toLower (QFileInfo_suffix p) = ext) : p.isEmpty = false := by
  cases p with
  | nil => exact absurd h.symm hext
  | cons c cs => rfl

/-- A value in `0 .. 2^31-1` is its own 32-bit `int`. -/
theorem int32_of_small (x : Int) (h0 : 0 ≤ x) (h1 : x < 2147483648) : int32 x = x := by
  unfold int32
  omega

/-- While `n * 100` fits a 32-bit `int`, the expression `(c * 100) / n` of the source with `c ≤ n`
is the quotient of natural numbers. -/
theorem progress_value_small (c n : Nat) (hc : c ≤ n) (hn : n * 100 < 2147483648) :
    Int.tdiv (int32 (((0 : Int) + (c : Int)) * 100)) (n : Int) = ((c * 100 / n : Nat) : Int) := by
  have h0 : ((0 : Int) + (c : Int)) * 100 = ((c * 100 : Nat) : Int) := by push_cast; ring
  rw [h0, int32_of_small _ (by omega) (by omega), Int.ofNat_tdiv]

/-! ## The commands of the three operations (C1) -/

/-- For a supported archive `extractSingleFile` starts one process, whose program, argument shape
and working directory depend on the archive only, and returns whether that process finished in
time. -/
theorem extractSingleFile_supported (st : ArchiveTool) (destDir : QString)
    (hfmt : QString_toLower (QFileInfo_suffix st.archivePath) ∈
      ["7z".toList, "rar".toList, "zip".toList, "tar".toList, "xz".toList]) :
    ∃ (program : QString) (arguments : QString → List QString) (dir : Option QString),
      ∀ filename outcome, extractSingleFile st filename destDir outcome =
        (waitForFinished outcome, [.procStart program (arguments filename) dir]) := by
  simp only [List.mem_cons, List.mem_singleton, List.not_mem_nil, or_false] at hfmt
  rcases hfmt with h | h | h | h | h
  · exact ⟨"7z".toList, fun f => ["e".toList, st.archivePath, f, "-o".toList ++ destDir, "-y".toList],
      none, fun f o => by simp [extractSingleFile, h]⟩
  · exact ⟨"unrar".toList, fun f => ["e".toList, st.archivePath, f, destDir],
      none, fun f o => by simp [extractSingleFile, h]⟩
  · exact ⟨"unzip".toList, fun f => [st.archivePath, f],
      some destDir, fun f o => by simp [extractSingleFile, h]⟩
  · exact ⟨"tar".toList, fun f => ["-xvf".toList, st.archivePath, f],
      some destDir, fun f o => by simp [extractSingleFile, h]⟩
  · exact ⟨"tar".toList, fun f => ["-xvf".toList, st.archivePath, f],
      some destDir, fun f o => by simp [extractSingleFile, h]⟩

/-- The slot `extractSingleFile` does not touch the progress bar. -/
theorem progressValues_extractSingleFile (st : ArchiveTool) (filename destDir : QString)
    (outcome : ProcOutcome) :
    progressValues (extractSingleFile st filename destDir outcome).2 = [] := by
  simp only [extractSingleFile]
  split_ifs <;> rfl

/-- The loop of `extractSelectedFiles` starts the command of every item, in order. -/
theorem startedProcesses_selectedLoop (st : ArchiveTool) (destDir : QString) (total : Int)
    (outcomes : Nat → ProcOutcome) (command : QString → Event)
    (hcmd : ∀ f o, startedProcesses (extractSingleFile st f destDir o).2 = [command f])
    (names : List QString) (i : Nat) (count : Int) :
    startedProcesses (extractSelectedLoop st destDir total outcomes names i count) =
      names.map command := by
  induction names generalizing i count with
  | nil => rfl
  | cons f rest ih =>
    simp only [extractSelectedLoop, startedProcesses_append, hcmd, ih, List.map_cons]
    simp [startedProcesses]

/-- The loop of `extractAllFiles` starts the command of every entry, in order. -/
theorem startedProcesses_allLoop (st : ArchiveTool) (destDir : QString) (total : Int)
    (outcomes : Nat → ProcOutcome) (command : QString → Event)
    (hcmd : ∀ f o, startedProcesses (extractSingleFile st f destDir o).2 = [command f])
    (names : List QString) (i : Nat) (count : Int) :
    startedProcesses (extractAllLoop st destDir total outcomes names i count) =
      names.map command := by
  induction names generalizing i count with
  | nil => rfl
  | cons f rest ih =>
    simp only [extractAllLoop, startedProcesses_append, hcmd, ih, List.map_cons]
    simp [startedProcesses]

/-- Claim C2: for a supported archive and a chosen destination directory there is one per-entry
extract command (a program, an argument list for each entry name, a working directory) such that,
for every selection, every list of entries and every pattern of outcomes (finished with any exit
code, failed to start, timed out), the processes started by `extractSelectedFiles` and by
`extractAllFiles` are exactly the commands of the requested entries, one for each, in the order
given.  No outcome of an entry keeps a later entry from being attempted. -/
theorem extract_batch_attempts_every_entry (st : ArchiveTool) (destDir : QString)
    (hdest : destDir ≠ [])
    (hfmt : QString_toLower (QFileInfo_suffix st.archivePath) ∈
      ["7z".toList, "rar".toList, "zip".toList, "tar".toList, "xz".toList]) :
    ∃ (program : QString) (arguments : QString → List QString) (dir : Option QString),
      (∀ filename outcome, extractSingleFile st filename destDir outcome =
        (waitForFinished outcome, [.procStart program (arguments filename) dir])) ∧
      ∀ outcomes : Nat → ProcOutcome,
        (∀ selectedItems : List QString,
          startedProcesses (extractSelectedFiles st selectedItems destDir outcomes) =
            selectedItems.map (fun f => .procStart program (arguments f) dir)) ∧
        startedProcesses (extractAllFiles st destDir outcomes) =
          st.archiveContents.map (fun f => .procStart program (arguments f) dir) := by
  obtain ⟨program, arguments, dir, h⟩ := extractSingleFile_supported st destDir hfmt
  have hd : destDir.isEmpty = false := by cases destDir <;> simp_all
  have hcmd : ∀ f o, startedProcesses (extractSingleFile st f destDir o).2 =
      [(fun f => Event.procStart program (arguments f) dir) f] := by
    intro f o
    simp [h, startedProcesses]
  refine ⟨program, arguments, dir, h, fun outcomes => ⟨fun selectedItems => ?_, ?_⟩⟩
  · cases hs : selectedItems with
    | nil => simp [extractSelectedFiles, startedProcesses]
    | cons a as =>
      simp only [extractSelectedFiles, hd, List.isEmpty_cons, Bool.false_eq_true, ↓reduceIte,
        startedProcesses_append]
      rw [startedProcesses_selectedLoop st destDir _ outcomes _ hcmd]
      simp [startedProcesses]
  · simp only [extractAllFiles, hd, Bool.false_eq_true, ↓reduceIte, startedProcesses_append]
    rw [startedProcesses_allLoop st destDir _ outcomes _ hcmd]
    simp [startedProcesses]

/-- The statement of `extract_batch_attempts_every_entry` for the archive `docs.zip`, and the batch
of three entries whose second one times out: all three `unzip` commands are started. -/
theorem extract_batch_attempts_every_entry_witness :
    "/home/u/out".toList ≠ [] ∧
    QString_toLower (QFileInfo_suffix (sampleSession "/home/u/docs.zip"
        ["a.txt", "b.txt", "c.txt"] []).archivePath) ∈
      ["7z".toList, "rar".toList, "zip".toList, "tar".toList, "xz".toList] ∧
    (∃ (program : QString) (arguments : QString → List QString) (dir : Option QString),
      (∀ filename outcome,
        extractSingleFile (sampleSession "/home/u/docs.zip" ["a.txt", "b.txt", "c.txt"] [])
          filename "/home/u/out".toList outcome =
          (waitForFinished outcome, [.procStart program (arguments filename) dir])) ∧
      ∀ outcomes : Nat → ProcOutcome,
        (∀ selectedItems : List QString,
          startedProcesses (extractSelectedFiles
              (sampleSession "/home/u/docs.zip" ["a.txt", "b.txt", "c.txt"] [])
              selectedItems "/home/u/out".toList outcomes) =
            selectedItems.map (fun f => .procStart program (arguments f) dir)) ∧
        startedProcesses (extractAllFiles
            (sampleSession "/home/u/docs.zip" ["a.txt", "b.txt", "c.txt"] [])
            "/home/u/out".toList outcomes) =
          (sampleSession "/home/u/docs.zip" ["a.txt", "b.txt", "c.txt"] []).archiveContents.map
            (fun f => .procStart program (arguments f) dir)) ∧
    startedProcesses (extractAllFiles
        (sampleSession "/home/u/docs.zip" ["a.txt", "b.txt", "c.txt"] [])
        "/home/u/out".toList secondTimesOut) =
      [.procStart "unzip".toList ["/home/u/docs.zip".toList, "a.txt".toList]
          (some "/home/u/out".toList),
        .procStart "unzip".toList ["/home/u/docs.zip".toList, "b.txt".toList]
          (some "/home/u/out".toList),
        .procStart "unzip".toList ["/home/u/docs.zip".toList, "c.txt".toList]
          (some "/home/u/out".toList)] :=
  ⟨by decide, by decide,
    extract_batch_attempts_every_entry
      (sampleSession "/home/u/docs.zip" ["a.txt", "b.txt", "c.txt"] [])
      "/home/u/out".toList (by decide) (by decide),
    by decide⟩

/-- The progress values of the loop of `extractAllFiles`: the counter grows by one with every entry. -/
theorem progressValues_allLoop (st : ArchiveTool) (destDir : QString) (total : Int)
    (outcomes : Nat → ProcOutcome) (names : List QString) (i : Nat) (count : Int) :
    progressValues (extractAllLoop st destDir total outcomes names i count) =
      (List.range names.length).map
        (fun k => Int.tdiv (int32 ((count + ((k + 1 : Nat) : Int)) * 100)) total) := by
  induction names generalizing i count with
  | nil => rfl
  | cons f rest ih =>
    rw [List.length_cons, List.range_succ_eq_map, List.map_cons, List.map_map]
    simp only [extractAllLoop, progressValues_append, progressValues_extractSingleFile, ih,
      progressValues, List.nil_append, List.singleton_append, List.cons.injEq]
    refine ⟨by simp, ?_⟩
    apply List.map_congr_left
    intro k _
    simp only [Function.comp_apply, Nat.succ_eq_add_one]
    congr 3
    push_cast
    ring

/-- The progress values of the loop of `extractSelectedFiles`: the counter grows with every entry
whose process finished in time. -/
theorem progressValues_selectedLoop (st : ArchiveTool) (destDir : QString) (total : Int)
    (outcomes : Nat → ProcOutcome)
    (hok : ∀ f o, (extractSingleFile st f destDir o).1 = waitForFinished o)
    (names : List QString) (i : Nat) (count : Int) :
    progressValues (extractSelectedLoop st destDir total outcomes names i count) =
      (List.range names.length).map
        (fun k => Int.tdiv (int32 ((count +
          (((List.range (k + 1)).countP (fun j => waitForFinished (outcomes (i + j))) : Nat) : Int))
            * 100)) total) := by
  induction names generalizing i count with
  | nil => rfl
  | cons f rest ih =>
    rw [List.length_cons, List.range_succ_eq_map, List.map_cons, List.map_map]
    simp only [extractSelectedLoop, progressValues_append, progressValues_extractSingleFile, ih,
      hok, progressValues, List.nil_append, List.singleton_append, List.cons.injEq]
    constructor
    · have h1 : List.range 1 = [0] := rfl
      by_cases h : waitForFinished (outcomes i) = true <;> simp [h, h1, List.countP_cons]
    · apply List.map_congr_left
      intro k _
      simp only [Function.comp_apply, Nat.succ_eq_add_one]
      congr 3
      rw [countP_range_succ_shift (fun j => waitForFinished (outcomes (i + j))) (k + 1)]
      have hfun : (fun j => waitForFinished (outcomes (i + (j + 1)))) =
          (fun j => waitForFinished (outcomes (i + 1 + j))) := by
        funext j
        congr 2
        omega
      simp only [hfun, Nat.add_zero]
      by_cases h : waitForFinished (outcomes i) = true
      · simp only [h, if_true]
        push_cast
        ring
      · simp [h]

/-- Claim C10, amended: for a supported archive, a chosen destination directory and batches small
enough for `count * 100` to fit a 32-bit `int`, the progress values of `extractAllFiles` over `n`
entries are `(k * 100) / n` for `k = 1..n`, whatever the outcomes, followed by the final `100`;
those of `extractSelectedFiles` over `n ≥ 1` items are `(s * 100) / n` after the `k`-th item, where
`s` is the number of the first `k` items whose extract process finished in time, followed by the
final `100`. -/
theorem extract_progress_values (st : ArchiveTool) (selectedItems : List QString)
    (destDir : QString) (outcomes : Nat → ProcOutcome)
    (hdest : destDir ≠ [])
    (hfmt : QString_toLower (QFileInfo_suffix st.archivePath) ∈
      ["7z".toList, "rar".toList, "zip".toList, "tar".toList, "xz".toList])
    (hsel : selectedItems ≠ [])
    (hselSize : selectedItems.length * 100 < 2147483648)
    (hallSize : st.archiveContents.length * 100 < 2147483648) :
    progressValues (extractAllFiles st destDir outcomes) =
      (List.range st.archiveContents.length).map
        (fun k => (((k + 1) * 100 / st.archiveContents.length : Nat) : Int)) ++ [100] ∧
    progressValues (extractSelectedFiles st selectedItems destDir outcomes) =
      (List.range selectedItems.length).map
        (fun k => (((List.range (k + 1)).countP (fun j => waitForFinished (outcomes j)) * 100 /
          selectedItems.length : Nat) : Int)) ++ [100] := by
  have hd : destDir.isEmpty = false := by cases destDir <;> simp_all
  have hs : selectedItems.isEmpty = false := by cases selectedItems <;> simp_all
  obtain ⟨program, arguments, dir, h⟩ := extractSingleFile_supported st destDir hfmt
  constructor
  · unfold extractAllFiles
    rw [if_neg (by simp [hd]), progressValues_append, progressValues_allLoop]
    refine congrArg (fun l => l ++ [(100 : Int)]) ?_
    apply List.map_congr_left
    intro k hk
    rw [List.mem_range] at hk
    exact progress_value_small (k + 1) _ (by omega) hallSize
  · unfold extractSelectedFiles
    rw [if_neg (by simp [hs]), if_neg (by simp [hd]), progressValues_append,
      progressValues_selectedLoop st destDir _ outcomes (fun f o => by rw [h])]
    refine congrArg (fun l => l ++ [(100 : Int)]) ?_
    apply List.map_congr_left
    intro k hk
    rw [List.mem_range] at hk
    simp only [Nat.zero_add]
    refine progress_value_small _ _ ?_ hselSize
    have := List.countP_le_length (fun j => waitForFinished (outcomes j)) (l := List.range (k + 1))
    simp only [List.length_range] at this
    omega

/-- The statement of `extract_progress_values` for a batch of three entries whose second one times
out. -/
theorem extract_progress_values_witness :
    "/home/u/out".toList ≠ [] ∧
    progressValues (extractAllFiles (sampleSession "/home/u/docs.zip" ["a.txt", "b.txt", "c.txt"] [])
        "/home/u/out".toList secondTimesOut) =
      (List.range 3).map (fun k => (((k + 1) * 100 / 3 : Nat) : Int)) ++ [100] ∧
    progressValues (extractSelectedFiles
        (sampleSession "/home/u/docs.zip" ["a.txt", "b.txt", "c.txt"] [])
        ["a.txt".toList, "b.txt".toList, "c.txt".toList] "/home/u/out".toList secondTimesOut) =
      (List.range 3).map
        (fun k => (((List.range (k + 1)).countP (fun j => waitForFinished (secondTimesOut j)) *
          100 / 3 : Nat) : Int)) ++ [100] :=
  have h := extract_progress_values
    (sampleSession "/home/u/docs.zip" ["a.txt", "b.txt", "c.txt"] [])
    ["a.txt".toList, "b.txt".toList, "c.txt".toList] "/home/u/out".toList secondTimesOut
    (by decide) (by decide) (by decide) (by decide) (by decide)
  ⟨by decide, h.1, h.2⟩

/-- With 21474837 entries the product `count * 100` of the last entry no longer fits a 32-bit `int`:
on wrap-around the value given to the progress bar is `-99`. -/
theorem extractAllFiles_progress_overflow (outcomes : Nat → ProcOutcome) :
    (progressValues (extractAllFiles
      { sampleSession "/home/u/docs.zip" [] [] with
        archiveContents := List.replicate 21474837 "a.txt".toList }
      "/home/u/out".toList outcomes))[21474836]? = some (-99) := by
  unfold extractAllFiles
  rw [if_neg (by decide), progressValues_append, progressValues_allLoop]
  have hlen : (List.replicate 21474837 "a.txt".toList).length = 21474837 :=
    List.length_replicate _ _
  rw [List.getElem?_append_left (by rw [List.length_map, List.length_range, hlen]; decide),
    List.getElem?_map, hlen, List.getElem?_range (by decide)]
  decide

/-- Claim C10 fails as stated: in a selection of three items whose second one times out,
`extractSelectedFiles` gives the progress bar `33, 33, 66` (and the final `100`), not
`(k * 100) / 3 = 33, 66, 100`: the item that timed out is not counted.  And in a batch of
21474837 entries `extractAllFiles` gives the progress bar `-99` after the last entry, not `100`:
the product `count * 100` does not fit the 32-bit `int` it is computed in. -/
theorem extractSelectedFiles_progress_counts_successes :
    progressValues (extractSelectedFiles
        (sampleSession "/home/u/docs.zip" ["a.txt", "b.txt", "c.txt"] [])
        ["a.txt".toList, "b.txt".toList, "c.txt".toList] "/home/u/out".toList secondTimesOut) =
      [33, 33, 66, 100] ∧
    (List.range 3).map (fun k => (((k + 1) * 100 / 3 : Nat) : Int)) = [33, 66, 100] ∧
    (progressValues (extractAllFiles
      { sampleSession "/home/u/docs.zip" [] [] with
        archiveContents := List.replicate 21474837 "a.txt".toList }
      "/home/u/out".toList secondTimesOut))[21474836]? = some (-99) :=
  ⟨by decide, by decide, extractAllFiles_progress_overflow secondTimesOut⟩

/-! ## Parsing a listing (C3, C4) -/

/-- For `7z` and `rar` the listing loop appends the last space-separated field of every line. -/
theorem foldl_listLine_sevenzip_rar (suffix : QString)
    (hfmt : suffix = "7z".toList ∨ suffix = "rar".toList) (lines : List QString) (st : ArchiveTool) :
    (lines.foldl (listLine suffix) st).archiveContents =
      st.archiveContents ++ lines.map (fun line => QString_section line ' ' (-1) (-1)) := by
  have hz : suffix ≠ "zip".toList := by
    rcases hfmt with h | h <;> rw [h] <;> decide
  induction lines generalizing st with
  | nil => simp
  | cons l ls ih =>
    rw [List.foldl_cons, ih]
    simp only [listLine, hz, false_and, if_false, hfmt, if_true, List.map_cons, List.append_assoc,
      List.singleton_append]

/-- For `zip` the listing loop appends the trimmed form of every line that neither contains ten
dashes in a row nor starts with one of the three header prefixes. -/
theorem foldl_listLine_zip (lines : List QString) (st : ArchiveTool) :
    (lines.foldl (listLine "zip".toList) st).archiveContents =
      st.archiveContents ++
        (lines.filter (fun line => decide (¬ ("----------".toList <:+: line ∨
            " Length".toList <+: line ∨ " Archive:".toList <+: line ∨
            "   Date".toList <+: line)))).map QString_trimmed := by
  induction lines generalizing st with
  | nil => simp
  | cons l ls ih =>
    rw [List.foldl_cons, ih]
    have h7 : ¬ ("zip".toList = "7z".toList ∨ "zip".toList = "rar".toList) := by decide
    by_cases hx : "----------".toList <:+: l ∨ " Length".toList <+: l ∨
        " Archive:".toList <+: l ∨ "   Date".toList <+: l
    · have hx2 := hx
      rw [← QString_contains_iff, ← QString_startsWith_iff, ← QString_startsWith_iff,
        ← QString_startsWith_iff] at hx2
      rw [List.filter_cons_of_neg (by simp only [decide_eq_true_eq]; exact not_not.mpr hx)]
      simp only [listLine, hx2, and_self, if_true]
    · have hx2 := hx
      rw [← QString_contains_iff, ← QString_startsWith_iff, ← QString_startsWith_iff,
        ← QString_startsWith_iff] at hx2
      rw [List.filter_cons_of_pos (by simp only [decide_eq_true_eq]; exact hx)]
      simp only [listLine, hx2, and_false, if_false, h7, List.map_cons, List.append_assoc,
        List.singleton_append]

/-- When the list command of a supported archive finishes, the entries are those the listing loop
collects from the cleared session. -/
theorem listArchiveContents_finished (st : ArchiveTool) (exitCode : Int) (output : QString)
    (hfmt : QString_toLower (QFileInfo_suffix st.archivePath) ∈
      ["7z".toList, "rar".toList, "zip".toList, "tar".toList, "xz".toList]) :
    (listArchiveContents st (.finished exitCode output)).1.archiveContents =
      ((QString_splitSkipEmptyParts '\n' output).foldl
        (listLine (QString_toLower (QFileInfo_suffix st.archivePath)))
        { st with fileList := [], archiveContents := [], extractButton := false,
                  extractAllButton := false, saveArchiveButton := false,
                  createMode := false }).archiveContents := by
  simp only [List.mem_cons, List.mem_singleton, List.not_mem_nil, or_false] at hfmt
  unfold listArchiveContents
  rcases hfmt with h | h | h | h | h <;> simp [h, waitForFinished, readAllStandardOutput]

/-- Claim C3, amended: when the list command of a `7z` or `rar` archive finishes, the entries are,
in order, one per non-empty line of its output, each the text after the last space character
(U+0020) of that line, which is the whole line when it has no space; the line
`...  2 files  12345  2024-01-01  myfile.txt` yields `myfile.txt`. -/
theorem listing_sevenzip_rar_entries (st : ArchiveTool) (exitCode : Int) (output : QString)
    (hfmt : QString_toLower (QFileInfo_suffix st.archivePath) = "7z".toList ∨
      QString_toLower (QFileInfo_suffix st.archivePath) = "rar".toList) :
    (listArchiveContents st (.finished exitCode output)).1.archiveContents =
      (QString_splitSkipEmptyParts '\n' output).map
        (fun line => QString_section line ' ' (-1) (-1)) ∧
    (∀ line ∈ QString_splitSkipEmptyParts '\n' output, line ≠ [] ∧ '\n' ∉ line) ∧
    (∀ line : QString, ∃ pre, line = pre ++ QString_section line ' ' (-1) (-1) ∧
      ' ' ∉ QString_section line ' ' (-1) (-1) ∧ (pre = [] ∨ pre.getLast? = some ' ')) ∧
    QString_section "...  2 files  12345  2024-01-01  myfile.txt".toList ' ' (-1) (-1) =
      "myfile.txt".toList := by
  refine ⟨?_, splitSkipEmptyParts_lines '\n' output, fun line => last_field_spec line ' ', by decide⟩
  rw [listArchiveContents_finished st exitCode output
    (by rcases hfmt with h | h <;> simp [h]), foldl_listLine_sevenzip_rar _ hfmt]
  rfl

/-- The statement of `listing_sevenzip_rar_entries` for the archive `Docs.7Z` and the line of the
specification, which yields the one entry `myfile.txt`. -/
theorem listing_sevenzip_rar_entries_witness :
    (QString_toLower (QFileInfo_suffix (sampleSession "/home/u/Docs.7Z" [] []).archivePath) =
        "7z".toList ∨
      QString_toLower (QFileInfo_suffix (sampleSession "/home/u/Docs.7Z" [] []).archivePath) =
        "rar".toList) ∧
    (listArchiveContents (sampleSession "/home/u/Docs.7Z" [] [])
      (.finished 0 "...  2 files  12345  2024-01-01  myfile.txt\n".toList)).1.archiveContents =
      (QString_splitSkipEmptyParts '\n'
        "...  2 files  12345  2024-01-01  myfile.txt\n".toList).map
        (fun line => QString_section line ' ' (-1) (-1)) ∧
    (listArchiveContents (sampleSession "/home/u/Docs.7Z" [] [])
      (.finished 0 "...  2 files  12345  2024-01-01  myfile.txt\n".toList)).1.archiveContents =
      ["myfile.txt".toList] :=
  ⟨by decide,
    (listing_sevenzip_rar_entries (sampleSession "/home/u/Docs.7Z" [] []) 0
      "...  2 files  12345  2024-01-01  myfile.txt\n".toList (by decide)).1,
    by decide⟩

/-- Claim C3 fails as stated: the line `notes<TAB>jan.txt` of a `7z` listing yields the entry
`notes<TAB>jan.txt`, which contains the white-space character TAB and so is not a
white-space-delimited field. -/
theorem listing_sevenzip_entry_with_tab :
    (listArchiveContents (sampleSession "/home/u/docs.7z" [] [])
      (.finished 0 "notes\tjan.txt\n".toList)).1.archiveContents = ["notes\tjan.txt".toList] ∧
    '\t' ∈ "notes\tjan.txt".toList ∧ QChar_isSpace '\t' = true := by
  decide

/-- Claim C4, amended: when the list command of a `zip` archive finishes, the entries are, in
order, the trimmed forms of exactly those non-empty lines of its output that neither contain ten
consecutive dashes nor start with ` Length`, ` Archive:` or `   Date`. -/
theorem listing_zip_entries (st : ArchiveTool) (exitCode : Int) (output : QString)
    (hfmt : QString_toLower (QFileInfo_suffix st.archivePath) = "zip".toList) :
    (listArchiveContents st (.finished exitCode output)).1.archiveContents =
      ((QString_splitSkipEmptyParts '\n' output).filter
        (fun line => decide (¬ ("----------".toList <:+: line ∨
          " Length".toList <+: line ∨ " Archive:".toList <+: line ∨
          "   Date".toList <+: line)))).map QString_trimmed ∧
    (∀ line ∈ QString_splitSkipEmptyParts '\n' output, line ≠ [] ∧ '\n' ∉ line) ∧
    (∀ line : QString, ∃ pre post, line = pre ++ QString_trimmed line ++ post ∧
      (∀ c ∈ pre, QChar_isSpace c = true) ∧ (∀ c ∈ post, QChar_isSpace c = true) ∧
      (∀ c, (QString_trimmed line).head? = some c → QChar_isSpace c = false) ∧
      (∀ c, (QString_trimmed line).getLast? = some c → QChar_isSpace c = false)) := by
  refine ⟨?_, splitSkipEmptyParts_lines '\n' output, trimmed_spec⟩
  rw [listArchiveContents_finished st exitCode output (by simp [hfmt]), hfmt, foldl_listLine_zip]
  rfl

/-- The statement of `listing_zip_entries` for the archive `docs.zip` and an output of three lines,
of which only ` a.txt ` remains, as `a.txt`. -/
theorem listing_zip_entries_witness :
    QString_toLower (QFileInfo_suffix (sampleSession "/home/u/docs.zip" [] []).archivePath) =
      "zip".toList ∧
    (listArchiveContents (sampleSession "/home/u/docs.zip" [] [])
      (.finished 0 " Archive:  docs.zip\n a.txt \n---------- ----\n".toList)).1.archiveContents =
      ((QString_splitSkipEmptyParts '\n'
        " Archive:  docs.zip\n a.txt \n---------- ----\n".toList).filter
        (fun line => decide (¬ ("----------".toList <:+: line ∨
          " Length".toList <+: line ∨ " Archive:".toList <+: line ∨
          "   Date".toList <+: line)))).map QString_trimmed ∧
    (listArchiveContents (sampleSession "/home/u/docs.zip" [] [])
      (.finished 0 " Archive:  docs.zip\n a.txt \n---------- ----\n".toList)).1.archiveContents =
      ["a.txt".toList] :=
  ⟨by decide,
    (listing_zip_entries (sampleSession "/home/u/docs.zip" [] []) 0
      " Archive:  docs.zip\n a.txt \n---------- ----\n".toList (by decide)).1,
    by decide⟩

/-- Claim C4 fails as stated: of the output of `unzip -l` the line
`---------                     -------`, which contains runs of nine and of seven dashes, is
kept as an entry. -/
theorem listing_zip_keeps_dash_line :
    (listArchiveContents (sampleSession "/home/u/docs.zip" [] [])
      (.finished 0 sampleUnzipListing)).1.archiveContents =
      ["Archive:  docs.zip".toList, "Length      Date    Time    Name".toList,
        "5  2024-01-01 10:00   a.txt".toList, "---------                     -------".toList,
        "5                     1 file".toList] ∧
    "---------".toList <:+: "---------                     -------".toList := by
  decide

/-! ## Creating an archive (C5, C6) -/

/-- The listing loop leaves the pending files, the archive path and the mode as they are. -/
theorem foldl_listLine_fields (suffix : QString) (lines : List QString) (st : ArchiveTool) :
    (lines.foldl (listLine suffix) st).newArchiveFiles = st.newArchiveFiles ∧
    (lines.foldl (listLine suffix) st).archivePath = st.archivePath ∧
    (lines.foldl (listLine suffix) st).createMode = st.createMode := by
  induction lines generalizing st with
  | nil => simp
  | cons l ls ih =>
    rw [List.foldl_cons]
    obtain ⟨h1, h2, h3⟩ := ih (listLine suffix st l)
    rw [h1, h2, h3]
    unfold listLine
    split_ifs <;> simp

/-- The slot `listArchiveContents` leaves the pending files and the archive path as they are and
leaves create mode. -/
theorem listArchiveContents_fields (st : ArchiveTool) (outcome : ProcOutcome) :
    (listArchiveContents st outcome).1.newArchiveFiles = st.newArchiveFiles ∧
    (listArchiveContents st outcome).1.archivePath = st.archivePath ∧
    (listArchiveContents st outcome).1.createMode = false := by
  unfold listArchiveContents
  simp only
  split
  · simp
  · split_ifs
    · simp
    · simp only
      refine ⟨(foldl_listLine_fields _ _ _).1, (foldl_listLine_fields _ _ _).2.1, ?_⟩
      exact (foldl_listLine_fields _ _ _).2.2

/-- For a creatable output and a non-empty pending list `saveArchive` starts a process and, when it
finishes in time, clears the file list and the pending files and leaves create mode. -/
theorem saveArchive_started (st : ArchiveTool) (outPath : QString) (outcome : ProcOutcome)
    (hfmt : QString_toLower (QFileInfo_suffix outPath) ∈
      ["zip".toList, "7z".toList, "tar".toList, "xz".toList])
    (hfiles : st.newArchiveFiles ≠ []) :
    ∃ start rest, (saveArchive st outPath outcome) =
      if !waitForFinished outcome then (st, start :: rest)
      else ({ st with fileList := [], newArchiveFiles := [], createMode := false }, start :: rest) := by
  have hf := isEmpty_false_of_ne_nil _ hfiles
  simp only [List.mem_cons, List.mem_singleton, List.not_mem_nil, or_false] at hfmt
  unfold saveArchive
  rcases hfmt with h | h | h | h <;>
    have hp := suffix_ne_nil_path outPath _ (by decide) h <;>
    simp only [h, hp, hf] <;>
    cases hw : waitForFinished outcome <;> simp

/-- Claim C6, amended: for a non-empty pending list and an output path of a creatable format, after a
`saveArchive` whose command finishes in time the pending list is empty and the session is no
longer in create mode: the first URL of a further drop becomes the archive path, and nothing is
added to the pending list. -/
theorem saveArchive_success_state (st : ArchiveTool) (outPath : QString) (outcome : ProcOutcome)
    (hfiles : st.newArchiveFiles ≠ [])
    (hfmt : QString_toLower (QFileInfo_suffix outPath) ∈
      ["zip".toList, "7z".toList, "tar".toList, "xz".toList])
    (hok : waitForFinished outcome = true) :
    (saveArchive st outPath outcome).1.newArchiveFiles = [] ∧
    (saveArchive st outPath outcome).1.createMode = false ∧
    ∀ (first : QString) (rest : List QString) (fileExists : QString → Bool)
      (listOutcome : ProcOutcome),
      (dropEvent (saveArchive st outPath outcome).1 (first :: rest) fileExists
        listOutcome).1.newArchiveFiles = [] ∧
      (dropEvent (saveArchive st outPath outcome).1 (first :: rest) fileExists
        listOutcome).1.archivePath = first := by
  obtain ⟨start, rest, h⟩ := saveArchive_started st outPath outcome hfmt hfiles
  rw [h, hok]
  refine ⟨rfl, rfl, fun first rest fileExists listOutcome => ?_⟩
  simp only [dropEvent, Bool.not_true, Bool.false_eq_true, if_false]
  split_ifs
  · exact ⟨rfl, rfl⟩
  · exact ⟨(listArchiveContents_fields _ _).1, (listArchiveContents_fields _ _).2.1⟩

/-- The statement of `saveArchive_success_state` for the composing session with one pending file and
the output `out.zip`. -/
theorem saveArchive_success_state_witness :
    sampleComposing.newArchiveFiles ≠ [] ∧
    QString_toLower (QFileInfo_suffix "/home/u/out.zip".toList) ∈
      ["zip".toList, "7z".toList, "tar".toList, "xz".toList] ∧
    waitForFinished (.finished 0 []) = true ∧
    (saveArchive sampleComposing "/home/u/out.zip".toList (.finished 0 [])).1.newArchiveFiles = [] ∧
    (saveArchive sampleComposing "/home/u/out.zip".toList (.finished 0 [])).1.createMode = false :=
  have h := saveArchive_success_state sampleComposing "/home/u/out.zip".toList (.finished 0 [])
    (by decide) (by decide) rfl
  ⟨by decide, by decide, rfl, h.1, h.2.1⟩

/-- Claim C6 fails as stated: the session in create mode with the pending file `/home/u/a.txt`
is, after a successful `saveArchive` to `out.zip`, not in create mode; the file `/home/u/b.txt`
dropped next is taken as the archive to open and the pending list stays empty. -/
theorem saveArchive_success_not_composing :
    sampleComposing.createMode = true ∧
    sampleComposing.newArchiveFiles = ["/home/u/a.txt".toList] ∧
    (saveArchive sampleComposing "/home/u/out.zip".toList (.finished 0 [])).1.createMode = false ∧
    (dropEvent (saveArchive sampleComposing "/home/u/out.zip".toList (.finished 0 [])).1
      ["/home/u/b.txt".toList] (fun _ => true) .timedOut).1.newArchiveFiles = [] ∧
    (dropEvent (saveArchive sampleComposing "/home/u/out.zip".toList (.finished 0 [])).1
      ["/home/u/b.txt".toList] (fun _ => true) .timedOut).1.archivePath =
      "/home/u/b.txt".toList := by
  decide

/-! ## A failed listing (C7) -/

/-- Claim C7, amended: when the archive has no supported suffix, or the list command does not
finish in time (it times out or fails to start), the entries after `listArchiveContents` are
empty, whatever they were before. -/
theorem listArchiveContents_failure_entries (st : ArchiveTool) (outcome : ProcOutcome)
    (hfail : QString_toLower (QFileInfo_suffix st.archivePath) ∉
        ["7z".toList, "rar".toList, "tar".toList, "xz".toList, "zip".toList] ∨
      waitForFinished outcome = false) :
    (listArchiveContents st outcome).1.archiveContents = [] := by
  unfold listArchiveContents
  simp only
  split
  · rfl
  · rename_i start hstart
    rcases hfail with h | h
    · simp only [List.mem_cons, List.mem_singleton, List.not_mem_nil, or_false, not_or] at h
      obtain ⟨h1, h2, h3, h4, h5⟩ := h
      rw [if_neg h1, if_neg h2, if_neg (not_or.2 ⟨h3, h4⟩), if_neg h5] at hstart
      cases hstart
    · simp [h]

/-- The statement of `listArchiveContents_failure_entries` for a list command that times out and for
the unsupported archive `setup.exe`. -/
theorem listArchiveContents_failure_entries_witness :
    waitForFinished .timedOut = false ∧
    (listArchiveContents sampleBrowsing .timedOut).1.archiveContents = [] ∧
    QString_toLower (QFileInfo_suffix
        (sampleSession "/home/u/setup.exe" ["a.txt"] []).archivePath) ∉
      ["7z".toList, "rar".toList, "tar".toList, "xz".toList, "zip".toList] ∧
    (listArchiveContents (sampleSession "/home/u/setup.exe" ["a.txt"] [])
      (.finished 0 "b.txt\n".toList)).1.archiveContents = [] :=
  ⟨rfl, listArchiveContents_failure_entries sampleBrowsing .timedOut (Or.inr rfl), by decide,
    listArchiveContents_failure_entries (sampleSession "/home/u/setup.exe" ["a.txt"] [])
      (.finished 0 "b.txt\n".toList) (Or.inl (by decide))⟩

/-- Claim C7 fails as stated: the session that lists the one entry `a.txt` has no entry left
after a list command that times out. -/
theorem listArchiveContents_timeout_clears_entries :
    sampleBrowsing.archiveContents = ["a.txt".toList] ∧
    (listArchiveContents sampleBrowsing .timedOut).1.archiveContents = [] ∧
    (listArchiveContents sampleBrowsing .timedOut).2 =
      [.setValue 0, .procStart "7z".toList ["l".toList, "-ba".toList, "/home/u/docs.7z".toList] none,
        .warning "Error".toList "Failed to list archive.".toList] := by
  decide

/-! ## New Archive (C8) -/

/-- Claim C8, evaluated on the session that has listed `docs.7z`: after `newArchive` the session
is in create mode with an empty archive path, an empty pending list and an empty list widget, and
`archiveContents` still holds the entry `a.txt`. -/
theorem newArchive_keeps_archiveContents :
    sampleBrowsing.archiveContents = ["a.txt".toList] ∧
    (newArchive sampleBrowsing).1.createMode = true ∧
    (newArchive sampleBrowsing).1.archivePath = [] ∧
    (newArchive sampleBrowsing).1.newArchiveFiles = [] ∧
    (newArchive sampleBrowsing).1.fileList = [] ∧
    (newArchive sampleBrowsing).1.archiveContents = ["a.txt".toList] := by
  decide

/-! ## The pending files (C9) -/

/-- The pending files after the loop body of `dropEvent`: a non-empty, absent path is appended. -/
theorem dropPath_newArchiveFiles (st : ArchiveTool) (path : QString) :
    (dropPath st path).newArchiveFiles =
      if path ≠ [] ∧ path ∉ st.newArchiveFiles then st.newArchiveFiles ++ [path]
      else st.newArchiveFiles := by
  unfold dropPath
  by_cases h1 : path = []
  · simp [h1]
  · by_cases h2 : path ∈ st.newArchiveFiles
    · simp [h1, h2]
    · simp [h1, h2]

/-- The loop body of `dropEvent` leaves the mode as it is. -/
theorem dropPath_createMode (st : ArchiveTool) (path : QString) :
    (dropPath st path).createMode = st.createMode := by
  unfold dropPath
  split_ifs <;> rfl

/-- The loop of `dropEvent` leaves the mode as it is. -/
theorem foldl_dropPath_createMode (urls : List QString) (st : ArchiveTool) :
    (urls.foldl dropPath st).createMode = st.createMode := by
  induction urls generalizing st with
  | nil => rfl
  | cons u us ih => rw [List.foldl_cons, ih, dropPath_createMode]

/-- The pending files after the loop of `dropEvent`. -/
theorem foldl_dropPath_newArchiveFiles (urls : List QString) (st : ArchiveTool) :
    (urls.foldl dropPath st).newArchiveFiles =
      urls.foldl (fun files path =>
        if path ≠ [] ∧ path ∉ files then files ++ [path] else files) st.newArchiveFiles := by
  induction urls generalizing st with
  | nil => rfl
  | cons u us ih => rw [List.foldl_cons, ih, dropPath_newArchiveFiles, List.foldl_cons]

/-- The loop body of `dropEvent` keeps the pending files free of duplicates. -/
theorem dropPath_nodup (st : ArchiveTool) (path : QString) (h : st.newArchiveFiles.Nodup) :
    (dropPath st path).newArchiveFiles.Nodup := by
  rw [dropPath_newArchiveFiles]
  split_ifs with hc
  · rw [List.nodup_append]
    refine ⟨h, List.nodup_singleton _, ?_⟩
    intro a ha hb
    rw [List.mem_singleton] at hb
    subst hb
    exact hc.2 ha
  · exact h

/-- The loop of `dropEvent` keeps the pending files free of duplicates. -/
theorem foldl_dropPath_nodup (urls : List QString) (st : ArchiveTool)
    (h : st.newArchiveFiles.Nodup) : (urls.foldl dropPath st).newArchiveFiles.Nodup := by
  induction urls generalizing st with
  | nil => exact h
  | cons u us ih =>
    rw [List.foldl_cons]
    exact ih _ (dropPath_nodup st u h)

/-- The slot `saveArchive` leaves the pending files as they are or empties them. -/
theorem saveArchive_newArchiveFiles (st : ArchiveTool) (outPath : QString)
    (outcome : ProcOutcome) :
    (saveArchive st outPath outcome).1.newArchiveFiles = st.newArchiveFiles ∨
    (saveArchive st outPath outcome).1.newArchiveFiles = [] := by
  unfold saveArchive
  by_cases h : (outPath.isEmpty = true ∨ st.newArchiveFiles.isEmpty = true)
  · rw [if_pos h]
    exact Or.inl rfl
  · rw [if_neg h]
    simp only
    split
    · exact Or.inl rfl
    · by_cases hw : (!waitForFinished outcome) = true
      · rw [if_pos hw]
        exact Or.inl rfl
      · rw [if_neg hw]
        exact Or.inr rfl

/-- No action introduces a duplicate into the pending files. -/
theorem step_nodup (st : ArchiveTool) (a : Action) (h : st.newArchiveFiles.Nodup) :
    (step st a).newArchiveFiles.Nodup := by
  cases a with
  | dropEvent urls fileExists outcome =>
    simp only [step, dropEvent]
    cases urls with
    | nil => exact h
    | cons first rest =>
      simp only
      split_ifs
      · exact foldl_dropPath_nodup _ _ h
      · exact h
      · rw [(listArchiveContents_fields _ _).1]
        exact h
  | extractSelectedFiles _ _ _ => exact h
  | extractAllFiles _ _ => exact h
  | newArchive => exact List.nodup_nil
  | saveArchive outPath outcome =>
    simp only [step]
    rcases saveArchive_newArchiveFiles st outPath outcome with e | e <;> rw [e]
    · exact h
    · exact List.nodup_nil

/-- No sequence of actions introduces a duplicate into the pending files. -/
theorem run_nodup (actions : List Action) (st : ArchiveTool) (h : st.newArchiveFiles.Nodup) :
    (run st actions).newArchiveFiles.Nodup := by
  induction actions generalizing st with
  | nil => exact h
  | cons a as ih => exact ih _ (step_nodup st a h)

/-- In create mode the drop of one URL is the loop body for its path. -/
theorem dropEvent_createMode_single (st : ArchiveTool) (path : QString)
    (fileExists : QString → Bool) (outcome : ProcOutcome) (hmode : st.createMode = true) :
    (dropEvent st [path] fileExists outcome).1 = dropPath st path := by
  simp [dropEvent, hmode]

/-- Claim C9: in create mode, dropping a path (a non-empty string) that is already pending leaves
the pending list as it is, and dropping an absent one appends it at the end; dropping the same
path a second time changes nothing, so that a list without duplicates holds it exactly once, where
the first drop put or found it; a drop of several URLs treats them one after the other in this
way; and from a session whose pending list is empty no sequence of actions leads to a pending
list with a duplicate. -/
theorem pending_files_set_semantics (st : ArchiveTool) (path : QString)
    (fileExists : QString → Bool) (outcome : ProcOutcome)
    (hmode : st.createMode = true) (hpath : path ≠ []) :
    (path ∈ st.newArchiveFiles →
      (dropEvent st [path] fileExists outcome).1.newArchiveFiles = st.newArchiveFiles) ∧
    (path ∉ st.newArchiveFiles →
      (dropEvent st [path] fileExists outcome).1.newArchiveFiles = st.newArchiveFiles ++ [path]) ∧
    (dropEvent (dropEvent st [path] fileExists outcome).1 [path] fileExists
        outcome).1.newArchiveFiles =
      (dropEvent st [path] fileExists outcome).1.newArchiveFiles ∧
    (st.newArchiveFiles.Nodup →
      (dropEvent (dropEvent st [path] fileExists outcome).1 [path] fileExists
        outcome).1.newArchiveFiles.countP (fun p => decide (p = path)) = 1) ∧
    (∀ (first : QString) (rest : List QString),
      (dropEvent st (first :: rest) fileExists outcome).1.newArchiveFiles =
        (first :: rest).foldl (fun files p =>
          if p ≠ [] ∧ p ∉ files then files ++ [p] else files) st.newArchiveFiles) ∧
    (∀ (start : ArchiveTool) (actions : List Action), start.newArchiveFiles = [] →
      (run start actions).newArchiveFiles.Nodup) := by
  have hm1 : (dropPath st path).createMode = true := by rw [dropPath_createMode, hmode]
  have hmem : path ∈ (dropPath st path).newArchiveFiles := by
    rw [dropPath_newArchiveFiles]
    split_ifs with hc
    · simp
    · by_contra hn
      exact hc ⟨hpath, hn⟩
  have htwice : (dropPath (dropPath st path) path).newArchiveFiles =
      (dropPath st path).newArchiveFiles := by
    rw [dropPath_newArchiveFiles (dropPath st path), if_neg (fun hc => hc.2 hmem)]
  rw [dropEvent_createMode_single st path fileExists outcome hmode,
    dropEvent_createMode_single _ path fileExists outcome hm1]
  refine ⟨?_, ?_, htwice, ?_, ?_, ?_⟩
  · intro h
    rw [dropPath_newArchiveFiles, if_neg (fun hc => hc.2 h)]
  · intro h
    rw [dropPath_newArchiveFiles, if_pos ⟨hpath, h⟩]
  · intro hnd
    rw [htwice]
    exact countP_eq_one_of_nodup_mem _ path (dropPath_nodup st path hnd) hmem
  · intro first rest
    simp only [dropEvent, hmode, if_true]
    exact foldl_dropPath_newArchiveFiles _ _
  · intro start actions h0
    exact run_nodup actions start (by rw [h0]; exact List.nodup_nil)

/-- The statement of `pending_files_set_semantics` for the composing session and the absent path
`/home/u/b.txt`, dropped twice. -/
theorem pending_files_set_semantics_witness :
    sampleComposing.createMode = true ∧ "/home/u/b.txt".toList ≠ [] ∧
    "/home/u/b.txt".toList ∉ sampleComposing.newArchiveFiles ∧
    (dropEvent sampleComposing ["/home/u/b.txt".toList] (fun _ => true)
      .timedOut).1.newArchiveFiles = sampleComposing.newArchiveFiles ++ ["/home/u/b.txt".toList] ∧
    (dropEvent (dropEvent sampleComposing ["/home/u/b.txt".toList] (fun _ => true) .timedOut).1
      ["/home/u/b.txt".toList] (fun _ => true) .timedOut).1.newArchiveFiles =
      (dropEvent sampleComposing ["/home/u/b.txt".toList] (fun _ => true)
        .timedOut).1.newArchiveFiles :=
  have h := pending_files_set_semantics sampleComposing "/home/u/b.txt".toList (fun _ => true)
    .timedOut (by decide) (by decide)
  ⟨by decide, by decide, by decide, h.2.1 (by decide), h.2.2.1⟩

end QArchiver
